import Mathlib

/-!
Shallow embedding of `scripts/token_tree.py`: the token-count tree data model
(`TokenNode`), tree building (`build_token_tree`), aggregation
(`TokenNode.aggregate`), the summary traversal (`summarize_tree`) and the
structural part of rendering (`render_tree_lines`'s `walk`).

Python dictionaries (`children: Dict[str, TokenNode]`) are modelled as
insertion-ordered lists of nodes with lookup by `name` (in the program every
dict key equals the stored child's `name`, set by `ensure_child`), first-match
lookup and first-match in-place update, mirroring unique-key dict semantics.
Mutation is modelled by explicit state passing: a Python method that mutates
`self` and returns a value becomes a Lean function returning the updated node
paired with the Python return value.

Cells of the rendered table that are produced by IEEE-754 double arithmetic
(the `.1f` formatting in `format_tokens`, the bar fill `int(ratio * bar_width)`
and the percent column) are outside the embedding; the rendered rows are
modelled by the exact data that determines them: token count, assembled name
cell, and file/directory kind.
-/

/-- Node of the token tree, from the `TokenNode` dataclass
(token_tree.py lines 105-110): a name, a directory flag, a token count and
the ordered children mapping. -/
inductive TokenNode : Type where
  | mk (name : String) (is_dir : Bool) (tokens : Nat) (children : List TokenNode)

/-- Field accessor for `TokenNode.name`. -/
def TokenNode.name : TokenNode → String
  | .mk n _ _ _ => n

/-- Field accessor for `TokenNode.is_dir`. -/
def TokenNode.is_dir : TokenNode → Bool
  | .mk _ d _ _ => d

/-- Field accessor for `TokenNode.tokens`. -/
def TokenNode.tokens : TokenNode → Nat
  | .mk _ _ t _ => t

/-- Field accessor for `TokenNode.children`. -/
def TokenNode.children : TokenNode → List TokenNode
  | .mk _ _ _ cs => cs

/-- Dict key membership test `name in self.children`. -/
def containsName (cs : List TokenNode) (s : String) : Bool :=
  cs.any (fun c => c.name == s)

/-- Dict lookup `self.children[name]`, first match by key. -/
def lookupChild (cs : List TokenNode) (s : String) : Option TokenNode :=
  cs.find? (fun c => c.name == s)

/-- In-place update of the dict entry with key `s` (first match), modelling
mutation of `self.children[s]` through an alias. -/
def updateChild (cs : List TokenNode) (s : String) (f : TokenNode → TokenNode) :
    List TokenNode :=
  match cs with
  | [] => []
  | c :: rest =>
    if c.name == s then f c :: rest else c :: updateChild rest s f

/-- Replace a node's children list, keeping its other fields. -/
def withChildren : TokenNode → List TokenNode → TokenNode
  | .mk n d t _, cs => .mk n d t cs

/-- Method `TokenNode.ensure_child` (token_tree.py lines 112-115):
if `name` is not a key of `self.children`, insert a fresh
`TokenNode(name=name, is_dir=is_dir)` (tokens 0, no children); then return
`self.children[name]`. The result is the updated `self` paired with the
returned child; a default (never reached) child covers the total lookup. -/
def TokenNode.ensure_child (self : TokenNode) (name : String) (is_dir : Bool) :
    TokenNode × TokenNode :=
  let self' :=
    if containsName self.children name then self
    else withChildren self (self.children ++ [TokenNode.mk name is_dir 0 []])
  (self', (lookupChild self'.children name).getD (TokenNode.mk name is_dir 0 []))

mutual

/-- Method `TokenNode.aggregate` (token_tree.py lines 117-121): a file node
returns its own `tokens`; a directory sets `self.tokens` to the sum of its
children's `aggregate()` results and returns it. The result is the updated
node paired with the Python return value. -/
def TokenNode.aggregate : TokenNode → TokenNode × Nat
  | .mk name d t cs =>
    if d then
      let p := aggregateList cs
      (.mk name d p.2 p.1, p.2)
    else (.mk name d t cs, t)

/-- Left-to-right aggregation of a children list, modelling
`sum(child.aggregate() for child in self.children.values())`. -/
def aggregateList : List TokenNode → List TokenNode × Nat
  | [] => ([], 0)
  | c :: rest =>
    let p := c.aggregate
    let q := aggregateList rest
    (p.1 :: q.1, p.2 + q.2)

end

/-- One entry of `build_token_tree`'s input: the relative path parts of a
tracked file, paired with `some tokens` when the file passes the text checks
(`is_text_file` and UTF-8 decoding) and `none` when it is skipped. The checks
themselves read the file system and are outside the embedding. -/
abbrev Entry := List String × Option Nat

/-- Insertion of one file path into the tree (token_tree.py lines 139-143):
walk `rel_parts[:-1]` with `ensure_child(part, is_dir=True)`, then
`ensure_child(rel_parts[-1], is_dir=False)` and assign its `tokens`.
An empty `rel_parts` makes `rel_parts[-1]` raise `IndexError`, modelled as
`none`; mutation through the `node` alias is modelled by writing the updated
child back into the parent's children list. -/
def insertPath : TokenNode → List String → Nat → Option TokenNode
  | _, [], _ => none
  | self, [last], tk =>
    let self' := (self.ensure_child last false).1
    some (withChildren self'
      (updateChild self'.children last (fun c => .mk c.name c.is_dir tk c.children)))
  | self, p :: rest, tk =>
    let self' := (self.ensure_child p true).1
    let child := (self.ensure_child p true).2
    match insertPath child rest tk with
    | none => none
    | some child' =>
      some (withChildren self' (updateChild self'.children p (fun _ => child')))

/-- The per-file loop of `build_token_tree` (token_tree.py lines 127-143):
skipped entries only grow the `skipped` list; text entries are inserted.
An uncaught `IndexError` aborts the build (`none`). -/
def buildLoop : TokenNode → Nat → List Entry → Option (TokenNode × Nat)
  | node, skipped, [] => some (node, skipped)
  | node, skipped, (_, none) :: rest => buildLoop node (skipped + 1) rest
  | node, skipped, (parts, some tk) :: rest =>
    match insertPath node parts tk with
    | none => none
    | some node' => buildLoop node' skipped rest

/-- Function `build_token_tree` (token_tree.py lines 124-146): start from a
directory root named after the repository, insert every non-skipped entry,
aggregate, and return the root with the skipped count. -/
def build_token_tree (rootName : String) (entries : List Entry) :
    Option (TokenNode × Nat) :=
  match buildLoop (TokenNode.mk rootName true 0 []) 0 entries with
  | none => none
  | some (node, skipped) => some ((node.aggregate).1, skipped)

/-- Path condition under which one insertion cannot corrupt a tree: along the
proper-prefix segments of the path, every segment that already exists in the
tree is a directory node (a missing segment is created as a directory by
`ensure_child` and is harmless). -/
def dirsAlong : TokenNode → List String → Bool
  | _, [] => true
  | _, [_] => true
  | n, p :: rest =>
    match lookupChild n.children p with
    | none => true
    | some c => c.is_dir && dirsAlong c rest

mutual

/-- Sum of `tokens` over every node of the subtree whose `is_dir` is false
(the file nodes), an independent flat computation used to check aggregation. -/
def fileSum : TokenNode → Nat
  | .mk _ d t cs => (if d then 0 else t) + fileSumList cs

/-- Sum of `fileSum` over a list of subtrees. -/
def fileSumList : List TokenNode → Nat
  | [] => 0
  | c :: rest => fileSum c + fileSumList rest

end

mutual

/-- Every node of the subtree, the node itself first. -/
def subnodes : TokenNode → List TokenNode
  | .mk n d t cs => .mk n d t cs :: subnodesList cs

/-- Concatenation of `subnodes` over a list of subtrees. -/
def subnodesList : List TokenNode → List TokenNode
  | [] => []
  | c :: rest => subnodes c ++ subnodesList rest

end

mutual

/-- Invariant: every node with `is_dir = false` has no children. -/
def filesChildless : TokenNode → Bool
  | .mk _ d _ cs => (d || cs.isEmpty) && filesChildlessList cs

/-- List form of `filesChildless`. -/
def filesChildlessList : List TokenNode → Bool
  | [] => true
  | c :: rest => filesChildless c && filesChildlessList rest

end

mutual

/-- Traversal `walk` of `summarize_tree` (token_tree.py lines 236-247):
threads `(count, max_tokens, max_name)` through the tree; a file node bumps
the count and takes the maximum token count with its slash-joined path;
a directory recurses into its children with its name appended to the path. -/
def summarizeGo : TokenNode → List String → Nat × Nat × String → Nat × Nat × String
  | .mk n d t cs, pathParts, (count, mx, mxName) =>
    if d then summarizeList cs (pathParts ++ [n]) (count, mx, mxName)
    else if mx < t then (count + 1, t, String.intercalate "/" (pathParts ++ [n]))
    else (count + 1, mx, mxName)

/-- Left-to-right traversal of a children list for `summarize_tree`. -/
def summarizeList : List TokenNode → List String → Nat × Nat × String → Nat × Nat × String
  | [], _, acc => acc
  | c :: rest, pathParts, acc =>
    summarizeList rest pathParts (summarizeGo c pathParts acc)

end

/-- Function `summarize_tree` (token_tree.py lines 230-248): returns
`(file count, largest file token count, name of that file)`. -/
def summarize_tree (node : TokenNode) : Nat × Nat × String :=
  summarizeGo node [] (0, 0, "")

/-- The `max_tokens` argument that `main` passes to `render_tree_lines`
(token_tree.py line 275): the root node's aggregated `tokens`, not the
summary's largest file token count. -/
def mainMaxTokensArg (token_tree : TokenNode) : Nat :=
  token_tree.tokens

/-- Stable sort of sibling nodes by ascending name, modelling
`sorted(..., key=lambda n: n.name)` (token_tree.py lines 220-221). -/
def sortByName (l : List TokenNode) : List TokenNode :=
  l.mergeSort (fun a b => a.name ≤ b.name)

/-- Child visit order of `render_tree_lines.walk` (token_tree.py lines
219-222): directory children sorted by name, then file children sorted by
name. -/
def orderedChildren (n : TokenNode) : List TokenNode :=
  sortByName (n.children.filter (fun c => c.is_dir))
    ++ sortByName (n.children.filter (fun c => !c.is_dir))

/-- One rendered table row, modelled by the exact data that determines it:
the node's token count (driving the tokens cell), the assembled name cell
`prefix + connector + name`, and whether the row is a file row (driving the
presence and contents of the bar and percent cells, which additionally
depend only on the render arguments `max_tokens` and `bar_width`). -/
structure Row where
  tokens : Nat
  nameCell : String
  isFile : Bool
deriving DecidableEq

/-- List sizes are invariant under permutation (used for termination of the
render walk, whose recursion goes through the sorted children). -/
theorem sizeOf_eq_of_perm {l₁ l₂ : List TokenNode} (h : l₁.Perm l₂) :
    sizeOf l₁ = sizeOf l₂ := by
  induction h with
  | nil => rfl
  | cons x _ ih => simp only [List.cons.sizeOf_spec]; omega
  | swap x y l => simp only [List.cons.sizeOf_spec]; omega
  | trans _ _ ih₁ ih₂ => omega

/-- Sorting siblings is a permutation. -/
theorem sortByName_perm (l : List TokenNode) : (sortByName l).Perm l :=
  List.mergeSort_perm l _

/-- The visit order is a permutation of the children. -/
theorem orderedChildren_perm (n : TokenNode) : (orderedChildren n).Perm n.children :=
  ((sortByName_perm _).append (sortByName_perm _)).trans
    (List.filter_append_perm _ n.children)

/-- The sorted children are smaller than the node, for termination. -/
theorem sizeOf_orderedChildren_lt (n : TokenNode) :
    sizeOf (orderedChildren n) < sizeOf n := by
  rw [sizeOf_eq_of_perm (orderedChildren_perm n)]
  obtain ⟨nm, d, t, cs⟩ := n
  simp only [TokenNode.children, TokenNode.mk.sizeOf_spec]
  omega

mutual

/-- Traversal `walk` of `render_tree_lines` (token_tree.py lines 190-226):
emit the current node's row (connector chosen from `depth` and `is_last`,
name cell assembled from the running prefix), then visit the children in
`orderedChildren` order, extending the prefix according to `is_last`. -/
def walkRows (n : TokenNode) (pre : String) (isLast : Bool) (depth : Nat) :
    List Row :=
  Row.mk n.tokens
      (pre ++ (if depth = 0 then "" else if isLast then "└── " else "├── ")
        ++ n.name)
      (!n.is_dir)
    :: walkChildren (orderedChildren n)
        (pre ++ (if isLast then "    " else "│   ")) (depth + 1)
termination_by sizeOf n
decreasing_by
  have := sizeOf_orderedChildren_lt n
  omega

/-- The `for idx, child in enumerate(ordered)` loop of `walk`: a child is
last exactly when it has no successor. -/
def walkChildren (l : List TokenNode) (pre : String) (depth : Nat) : List Row :=
  match l with
  | [] => []
  | c :: rest => walkRows c pre rest.isEmpty depth ++ walkChildren rest pre depth
termination_by sizeOf l
decreasing_by
  · simp only [List.cons.sizeOf_spec]; omega
  · simp only [List.cons.sizeOf_spec]; omega

end

/-- Function `render_tree_lines` at the row level (token_tree.py line 226):
the walk starts at the root with an empty prefix, `is_last=True`, depth 0. -/
def renderRows (node : TokenNode) : List Row :=
  walkRows node "" true 0

/-- Canonical form of a tree: every children list is recursively rewritten
into the render visit order (directories sorted by name, then files sorted by
name). Two trees with the same canonical form hold the same contents and can
differ only in the insertion order of their children dictionaries. -/
def normalizeTree (n : TokenNode) : TokenNode :=
  TokenNode.mk n.name n.is_dir n.tokens
    ((orderedChildren n).attach.map (fun c => normalizeTree c.1))
termination_by sizeOf n
decreasing_by
  have h₁ := List.sizeOf_lt_of_mem c.2
  have h₂ := sizeOf_orderedChildren_lt n
  omega

/-- Structural induction over the nested tree type: to prove `P` of a node it
suffices to prove it assuming `P` of every child. -/
theorem TokenNode.ind (P : TokenNode → Prop)
    (h : ∀ n d t cs, (∀ c ∈ cs, P c) → P (.mk n d t cs)) : ∀ x, P x
  | .mk n d t cs => h n d t cs (fun c hmem => TokenNode.ind P h c)
  termination_by x => sizeOf x
  decreasing_by
    have := List.sizeOf_lt_of_mem hmem
    simp only [TokenNode.mk.sizeOf_spec]
    omega

/-- Key membership agrees with lookup success. -/
theorem containsName_iff_lookup (cs : List TokenNode) (s : String) :
    containsName cs s = true ↔ (lookupChild cs s).isSome = true := by
  induction cs with
  | nil => simp [containsName, lookupChild]
  | cons c rest ih =>
    by_cases h : c.name == s
    · simp [containsName, lookupChild, List.find?, h]
    · simp only [containsName, lookupChild, List.any_cons, List.find?] at *
      simp [h, ih]

/-- Lookup of a fresh key after appending a node carrying it. -/
theorem lookup_append_fresh (cs : List TokenNode) (x : TokenNode)
    (h : containsName cs x.name = false) :
    lookupChild (cs ++ [x]) x.name = some x := by
  induction cs with
  | nil => simp [lookupChild, List.find?]
  | cons c rest ih =>
    simp only [containsName, List.any_cons, Bool.or_eq_false_iff] at h
    simp only [lookupChild, List.cons_append, List.find?, h.1]
    exact ih h.2

/-- C10: calling `ensure_child` with a name that is already a key of the
children mapping returns the existing child node and leaves the tree
unchanged, for either requested directory flag: the flag is ignored, the
existing node is retained, and no error occurs. -/
theorem ensure_child_existing_noop (n : TokenNode) (s : String) (c : TokenNode)
    (h : lookupChild n.children s = some c) (d : Bool) :
    n.ensure_child s d = (n, c) := by
  have hc : containsName n.children s = true := by
    rw [containsName_iff_lookup, h]
    rfl
  simp [TokenNode.ensure_child, hc, h]

/-- Witness for `ensure_child_existing_noop` at a concrete tree, for both
directory flags. -/
theorem ensure_child_existing_noop_witness :
    lookupChild (TokenNode.mk "r" true 7 [TokenNode.mk "a" false 3 []]).children "a"
        = some (TokenNode.mk "a" false 3 [])
      ∧ (TokenNode.mk "r" true 7 [TokenNode.mk "a" false 3 []]).ensure_child "a" true
        = (TokenNode.mk "r" true 7 [TokenNode.mk "a" false 3 []], TokenNode.mk "a" false 3 [])
      ∧ (TokenNode.mk "r" true 7 [TokenNode.mk "a" false 3 []]).ensure_child "a" false
        = (TokenNode.mk "r" true 7 [TokenNode.mk "a" false 3 []], TokenNode.mk "a" false 3 []) :=
  ⟨rfl,
    ensure_child_existing_noop (TokenNode.mk "r" true 7 [TokenNode.mk "a" false 3 []])
      "a" (TokenNode.mk "a" false 3 []) rfl true,
    ensure_child_existing_noop (TokenNode.mk "r" true 7 [TokenNode.mk "a" false 3 []])
      "a" (TokenNode.mk "a" false 3 []) rfl false⟩

/-- Re-aggregating an already aggregated children list changes nothing. -/
theorem aggregateList_idem (cs : List TokenNode)
    (ih : ∀ c ∈ cs, TokenNode.aggregate ((c.aggregate).1) = c.aggregate) :
    aggregateList ((aggregateList cs).1) = aggregateList cs := by
  induction cs with
  | nil => rfl
  | cons c rest ihr =>
    simp only [aggregateList]
    rw [ih c (by simp), ihr (fun x hx => ih x (by simp [hx]))]

/-- C7: aggregation is idempotent: re-aggregating the tree produced by
`aggregate` returns the very same tree and the same value, so every node's
token count is unchanged by a second call. -/
theorem aggregate_idempotent (t : TokenNode) :
    TokenNode.aggregate ((t.aggregate).1) = t.aggregate := by
  induction t using TokenNode.ind with
  | h n d t cs ih =>
    by_cases hd : d
    · simp only [TokenNode.aggregate, hd, if_true]
      rw [aggregateList_idem cs ih]
    · simp [TokenNode.aggregate, hd]

/-- C1: on the spec's own example (two skill files of 300 and 80 tokens),
`main` hands `render_tree_lines` the root's aggregated total 380 as
`max_tokens` (token_tree.py line 275), although the largest file token count
in the tree — the value `summarize_tree` computes — is 300: the per-file bar
ratios are scaled by the aggregated sum, not by the largest leaf. -/
theorem main_bar_scale_uses_root_total :
    (build_token_tree "repo"
        [(["skills", "a", "SKILL.md"], some 300),
         (["skills", "b", "SKILL.md"], some 80)]).map
        (fun p => (mainMaxTokensArg p.1, (summarize_tree p.1).2.1))
      = some (380, 300) ∧ (380 : Nat) ≠ 300 :=
  ⟨rfl, by decide⟩

/-- Inserting a non-empty path never fails. -/
theorem insertPath_isSome : ∀ (parts : List String) (n : TokenNode) (tk : Nat),
    parts ≠ [] → (insertPath n parts tk).isSome = true
  | [], _, _, h => absurd rfl h
  | [_], _, _, _ => by simp [insertPath]
  | p :: q :: rest, n, tk, _ => by
    have ih := insertPath_isSome (q :: rest) ((n.ensure_child p true).2) tk (by simp)
    simp only [insertPath]
    cases hx : insertPath ((n.ensure_child p true).2) (q :: rest) tk with
    | none => rw [hx] at ih; simp at ih
    | some c' => simp

/-- The build loop aborts exactly when it reaches a non-skipped entry with an
empty relative path. -/
theorem buildLoop_none_iff : ∀ (entries : List Entry) (node : TokenNode) (sk : Nat),
    buildLoop node sk entries = none ↔ ∃ e ∈ entries, e.2.isSome = true ∧ e.1 = []
  | [], node, sk => by simp [buildLoop]
  | (parts, none) :: rest, node, sk => by
    simp only [buildLoop, List.mem_cons]
    rw [buildLoop_none_iff rest node (sk + 1)]
    constructor
    · rintro ⟨e, he, hs, hn⟩
      exact ⟨e, Or.inr he, hs, hn⟩
    · rintro ⟨e, he | he, hs, hn⟩
      · subst he; simp at hs
      · exact ⟨e, he, hs, hn⟩
  | (parts, some tk) :: rest, node, sk => by
    cases parts with
    | nil =>
      simp only [buildLoop, insertPath]
      constructor
      · intro _
        exact ⟨([], some tk), by simp⟩
      · intro _; trivial
    | cons p ps =>
      have hs := insertPath_isSome (p :: ps) node tk (by simp)
      simp only [buildLoop]
      cases hx : insertPath node (p :: ps) tk with
      | none => rw [hx] at hs; simp at hs
      | some node' =>
        rw [buildLoop_none_iff rest node' sk]
        simp only [List.mem_cons]
        constructor
        · rintro ⟨e, he, hp, hn⟩
          exact ⟨e, Or.inr he, hp, hn⟩
        · rintro ⟨e, he | he, hp, hn⟩
          · subst he; simp at hn
          · exact ⟨e, he, hp, hn⟩

/-- C2 (amended): the builder has no `InvalidPath` signal. It fails — with an
uncaught `IndexError` from `rel_parts[-1]`, modelled as `none` — exactly when
some entry that passes the text checks has an empty relative path; every
other input builds a tree without error, including inputs in which a path
segment previously materialized as a file node is later used as a directory,
which are silently merged rather than rejected. -/
theorem build_failure_iff_empty_path (rootName : String) (entries : List Entry) :
    build_token_tree rootName entries = none
      ↔ ∃ e ∈ entries, e.2.isSome = true ∧ e.1 = [] := by
  rw [← buildLoop_none_iff entries (TokenNode.mk rootName true 0 []) 0]
  unfold build_token_tree
  cases buildLoop (TokenNode.mk rootName true 0 []) 0 entries with
  | none => simp
  | some p => simp

/-- Counterexample to C2 as stated: the path `f` is first materialized as a
file node (5 tokens), then the entry `f/g` requires `f` to act as a
directory. The builder does not fail with any error: it returns a tree in
which the file node `f` has silently received the child `g`. -/
theorem build_collision_returns_tree :
    build_token_tree "repo" [(["f"], some 5), (["f", "g"], some 3)]
      = some (TokenNode.mk "repo" true 5
          [TokenNode.mk "f" false 5 [TokenNode.mk "g" false 3 []]], 0) :=
  rfl

/-- The childless-files invariant passes to every member of a children list. -/
theorem filesChildlessList_mem {cs : List TokenNode}
    (h : filesChildlessList cs = true) : ∀ c ∈ cs, filesChildless c = true := by
  induction cs with
  | nil => intro c hc; simp at hc
  | cons c rest ih =>
    simp only [filesChildlessList, Bool.and_eq_true] at h
    intro x hx
    rcases List.mem_cons.mp hx with hx | hx
    · subst hx; exact h.1
    · exact ih h.2 x hx

/-- Aggregating a children list of childless-file trees makes the returned
sum the flat file sum, and every aggregated directory below carries its own
flat file sum. -/
theorem aggregateList_fileSum (cs : List TokenNode)
    (hwf : filesChildlessList cs = true)
    (ih : ∀ c ∈ cs, filesChildless c = true →
      fileSum ((c.aggregate).1) = (c.aggregate).2
        ∧ ∀ m ∈ subnodes ((c.aggregate).1), m.is_dir = true → m.tokens = fileSum m) :
    fileSumList ((aggregateList cs).1) = (aggregateList cs).2
      ∧ ∀ m ∈ subnodesList ((aggregateList cs).1), m.is_dir = true → m.tokens = fileSum m := by
  induction cs with
  | nil => exact ⟨rfl, by intro m hm; simp [subnodesList] at hm⟩
  | cons c rest ihr =>
    simp only [filesChildlessList, Bool.and_eq_true] at hwf
    have hc := ih c (by simp) hwf.1
    have hr := ihr hwf.2 (fun x hx h => ih x (by simp [hx]) h)
    refine ⟨?_, ?_⟩
    · simp only [aggregateList, fileSumList]
      rw [hc.1, hr.1]
    · intro m hm
      simp only [aggregateList, subnodesList, List.mem_append] at hm
      rcases hm with hm | hm
      · exact hc.2 m hm
      · exact hr.2 m hm

/-- Aggregation of a childless-files tree: the returned value is the flat
file sum, and every directory node of the result carries its flat file sum. -/
theorem aggregate_fileSum (t : TokenNode) (h : filesChildless t = true) :
    fileSum ((t.aggregate).1) = (t.aggregate).2
      ∧ ∀ m ∈ subnodes ((t.aggregate).1), m.is_dir = true → m.tokens = fileSum m := by
  induction t using TokenNode.ind with
  | h n d t cs ih =>
    simp only [filesChildless, Bool.and_eq_true] at h
    by_cases hd : d
    · subst hd
      have hl := aggregateList_fileSum cs h.2
        (fun c hc hwfc => ih c hc (by simpa [filesChildless] using hwfc))
      simp only [TokenNode.aggregate, if_true]
      refine ⟨by simpa [fileSum] using hl.1, ?_⟩
      intro m hm
      simp only [subnodes, List.mem_cons] at hm
      rcases hm with hm | hm
      · subst hm
        intro _
        simpa [TokenNode.tokens, fileSum] using hl.1.symm
      · exact hl.2 m hm
    · have hd' : d = false := by
        cases d
        · rfl
        · exact absurd rfl hd
      subst hd'
      simp only [Bool.false_or] at h
      have hcs : cs = [] := by
        cases cs with
        | nil => rfl
        | cons a l => simp [List.isEmpty] at h
      subst hcs
      have hagg : (TokenNode.mk n false t []).aggregate = (TokenNode.mk n false t [], t) := rfl
      rw [hagg]
      refine ⟨by simp [fileSum, fileSumList], ?_⟩
      intro m hm
      have hm' : m = TokenNode.mk n false t [] := by
        simpa [subnodes, subnodesList] using hm
      subst hm'
      intro hdir
      simp [TokenNode.is_dir] at hdir

/-- C3: after aggregation of a tree whose file nodes are childless, every
directory node's token count equals the sum of the token counts of all file
nodes in its subtree; `aggregate` returns the node's resulting token count,
and on a file node it returns the stored token count leaving the node
unchanged. -/
theorem aggregate_dir_totals (t : TokenNode) (h : filesChildless t = true) :
    (∀ m ∈ subnodes ((t.aggregate).1), m.is_dir = true → m.tokens = fileSum m)
      ∧ (t.aggregate).2 = ((t.aggregate).1).tokens
      ∧ (t.is_dir = false → t.aggregate = (t, t.tokens)) := by
  refine ⟨(aggregate_fileSum t h).2, ?_, ?_⟩
  · obtain ⟨n, d, tk, cs⟩ := t
    by_cases hd : d
    · simp [TokenNode.aggregate, hd, TokenNode.tokens]
    · simp [TokenNode.aggregate, hd, TokenNode.tokens]
  · intro hf
    obtain ⟨n, d, tk, cs⟩ := t
    simp only [TokenNode.is_dir] at hf
    simp [TokenNode.aggregate, hf, TokenNode.tokens]

/-- Witness for `aggregate_dir_totals` at a concrete two-level tree. -/
theorem aggregate_dir_totals_witness :
    filesChildless (TokenNode.mk "r" true 0
        [TokenNode.mk "a" false 3 [],
         TokenNode.mk "s" true 0 [TokenNode.mk "b" false 4 []]]) = true
      ∧ ((∀ m ∈ subnodes (((TokenNode.mk "r" true 0
            [TokenNode.mk "a" false 3 [],
             TokenNode.mk "s" true 0 [TokenNode.mk "b" false 4 []]]).aggregate).1),
          m.is_dir = true → m.tokens = fileSum m)
        ∧ ((TokenNode.mk "r" true 0
            [TokenNode.mk "a" false 3 [],
             TokenNode.mk "s" true 0 [TokenNode.mk "b" false 4 []]]).aggregate).2
          = (((TokenNode.mk "r" true 0
            [TokenNode.mk "a" false 3 [],
             TokenNode.mk "s" true 0 [TokenNode.mk "b" false 4 []]]).aggregate).1).tokens
        ∧ ((TokenNode.mk "r" true 0
            [TokenNode.mk "a" false 3 [],
             TokenNode.mk "s" true 0 [TokenNode.mk "b" false 4 []]]).is_dir = false →
          (TokenNode.mk "r" true 0
            [TokenNode.mk "a" false 3 [],
             TokenNode.mk "s" true 0 [TokenNode.mk "b" false 4 []]]).aggregate
            = (TokenNode.mk "r" true 0
                [TokenNode.mk "a" false 3 [],
                 TokenNode.mk "s" true 0 [TokenNode.mk "b" false 4 []]],
               (TokenNode.mk "r" true 0
                [TokenNode.mk "a" false 3 [],
                 TokenNode.mk "s" true 0 [TokenNode.mk "b" false 4 []]]).tokens))) :=
  ⟨rfl,
    aggregate_dir_totals
      (TokenNode.mk "r" true 0
        [TokenNode.mk "a" false 3 [],
         TokenNode.mk "s" true 0 [TokenNode.mk "b" false 4 []]]) rfl⟩

/-- Structure form of `withChildren` through the accessors. -/
theorem withChildren_eq (n : TokenNode) (cs : List TokenNode) :
    withChildren n cs = TokenNode.mk n.name n.is_dir n.tokens cs := by
  obtain ⟨nm, d, t, l⟩ := n
  rfl

/-- Directory flag after replacing the children. -/
theorem withChildren_is_dir (n : TokenNode) (cs : List TokenNode) :
    (withChildren n cs).is_dir = n.is_dir := by
  obtain ⟨nm, d, t, l⟩ := n
  rfl

/-- Children after replacing the children. -/
theorem withChildren_children (n : TokenNode) (cs : List TokenNode) :
    (withChildren n cs).children = cs := by
  obtain ⟨nm, d, t, l⟩ := n
  rfl

/-- The childless-files invariant of a directory node reduces to its list. -/
theorem filesChildless_mk_dir (nm : String) (tk : Nat) (cs : List TokenNode)
    (h : filesChildlessList cs = true) :
    filesChildless (TokenNode.mk nm true tk cs) = true := by
  simp [filesChildless, h]

/-- The childless-files invariant of a node gives it for its children list. -/
theorem filesChildless_children {n : TokenNode} (h : filesChildless n = true) :
    filesChildlessList n.children = true := by
  obtain ⟨nm, d, t, cs⟩ := n
  simp only [filesChildless, Bool.and_eq_true] at h
  exact h.2

/-- A first-match update whose function keeps the invariant keeps the
invariant of the list. -/
theorem filesChildlessList_updateChild (cs : List TokenNode) (s : String)
    (f : TokenNode → TokenNode)
    (hf : ∀ c, filesChildless c = true → filesChildless (f c) = true)
    (h : filesChildlessList cs = true) :
    filesChildlessList (updateChild cs s f) = true := by
  induction cs with
  | nil => rfl
  | cons c rest ih =>
    simp only [filesChildlessList, Bool.and_eq_true] at h
    by_cases hn : c.name == s
    · simp only [updateChild, hn, if_true, filesChildlessList, Bool.and_eq_true]
      exact ⟨hf c h.1, h.2⟩
    · simp only [updateChild, hn, if_false, filesChildlessList, Bool.and_eq_true,
        Bool.false_eq_true]
      exact ⟨h.1, ih h.2⟩

/-- Appending an invariant-satisfying node keeps the invariant of the list. -/
theorem filesChildlessList_append (cs : List TokenNode) (x : TokenNode)
    (h : filesChildlessList cs = true) (hx : filesChildless x = true) :
    filesChildlessList (cs ++ [x]) = true := by
  induction cs with
  | nil => simpa [filesChildlessList]
  | cons c rest ih =>
    simp only [filesChildlessList, Bool.and_eq_true] at h
    simp only [List.cons_append, filesChildlessList, Bool.and_eq_true]
    exact ⟨h.1, ih h.2⟩

/-- Changing only the token count of a node does not affect the invariant. -/
theorem filesChildless_set_tokens (c : TokenNode) (tk : Nat)
    (h : filesChildless c = true) :
    filesChildless (TokenNode.mk c.name c.is_dir tk c.children) = true := by
  obtain ⟨nm, d, t, cs⟩ := c
  exact h

/-- A found child makes `ensure_child` a no-op returning it (helper shared by
several developments). -/
theorem ensure_child_found (n : TokenNode) (s : String) (c : TokenNode)
    (h : lookupChild n.children s = some c) (d : Bool) :
    n.ensure_child s d = (n, c) := by
  have hc : containsName n.children s = true := by
    rw [containsName_iff_lookup, h]
    rfl
  simp [TokenNode.ensure_child, hc, h]

/-- A missing child makes `ensure_child` append a fresh childless node with
the requested name and flag, and return that fresh node. -/
theorem ensure_child_fresh (n : TokenNode) (s : String) (d : Bool)
    (h : containsName n.children s = false) :
    n.ensure_child s d
      = (withChildren n (n.children ++ [TokenNode.mk s d 0 []]),
         TokenNode.mk s d 0 []) := by
  have hl := lookup_append_fresh n.children (TokenNode.mk s d 0 []) (by simpa [TokenNode.name])
  rw [show (TokenNode.mk s d 0 []).name = s from rfl] at hl
  obtain ⟨nm, dd, t, cs⟩ := n
  simp only [TokenNode.children] at h hl ⊢
  simp [TokenNode.ensure_child, TokenNode.children, withChildren, h, hl]

/-- The updated node of `ensure_child` keeps the directory flag. -/
theorem ensure_child_fst_is_dir (n : TokenNode) (s : String) (d : Bool) :
    ((n.ensure_child s d).1).is_dir = n.is_dir := by
  by_cases hc : containsName n.children s
  · simp [TokenNode.ensure_child, hc]
  · simp only [TokenNode.ensure_child, hc, Bool.false_eq_true, if_false]
    rw [withChildren_eq]
    rfl

/-- The `ensure_child` step of the builder keeps the invariant when applied to
a directory node. -/
theorem ensure_child_preserves_wf (n : TokenNode) (s : String) (d : Bool)
    (hdir : n.is_dir = true) (h : filesChildless n = true) :
    filesChildless ((n.ensure_child s d).1) = true := by
  by_cases hc : containsName n.children s
  · simpa [TokenNode.ensure_child, hc]
  · simp only [TokenNode.ensure_child, hc, Bool.false_eq_true, if_false]
    rw [withChildren_eq, hdir]
    refine filesChildless_mk_dir _ _ _ ?_
    refine filesChildlessList_append _ _ (filesChildless_children h) ?_
    cases d <;> rfl

/-- Insertion along a path whose existing proper-prefix segments are all
directories keeps the childless-files invariant. -/
theorem insertPath_preserves_wf :
    ∀ (parts : List String) (n : TokenNode) (tk : Nat) (n' : TokenNode),
      n.is_dir = true → filesChildless n = true → dirsAlong n parts = true →
      insertPath n parts tk = some n' → filesChildless n' = true
  | [], _, _, _, _, _, _, h => by simp [insertPath] at h
  | [last], n, tk, n', hdir, hwf, _, h => by
    simp only [insertPath, Option.some_inj] at h
    subst h
    have hwf' : filesChildless ((n.ensure_child last false).1) = true :=
      ensure_child_preserves_wf n last false hdir hwf
    have hdir' : ((n.ensure_child last false).1).is_dir = true := by
      rw [ensure_child_fst_is_dir]; exact hdir
    rw [withChildren_eq, hdir']
    refine filesChildless_mk_dir _ _ _ ?_
    refine filesChildlessList_updateChild _ _ _ ?_ (filesChildless_children hwf')
    intro c hc
    exact filesChildless_set_tokens c tk hc
  | p :: q :: rest, n, tk, n', hdir, hwf, hda, h => by
    by_cases hc : containsName n.children p
    · obtain ⟨c, hlk⟩ : ∃ c, lookupChild n.children p = some c := by
        rw [containsName_iff_lookup] at hc
        exact Option.isSome_iff_exists.mp hc
      have hecn := ensure_child_found n p c hlk true
      have hcwf : filesChildless c = true :=
        filesChildlessList_mem (filesChildless_children hwf) c
          (List.mem_of_find?_eq_some hlk)
      have hda' : c.is_dir = true ∧ dirsAlong c (q :: rest) = true := by
        simp only [dirsAlong, hlk, Bool.and_eq_true] at hda
        exact hda
      simp only [insertPath, hecn] at h
      cases hx : insertPath c (q :: rest) tk with
      | none => rw [hx] at h; simp at h
      | some child' =>
        rw [hx] at h
        simp only [Option.some_inj] at h
        subst h
        have hwfc' := insertPath_preserves_wf (q :: rest) c tk child'
          hda'.1 hcwf hda'.2 hx
        rw [withChildren_eq, hdir]
        refine filesChildless_mk_dir _ _ _ ?_
        exact filesChildlessList_updateChild _ _ _ (fun _ _ => hwfc')
          (filesChildless_children hwf)
    · have hecn := ensure_child_fresh n p true (by simpa using hc)
      have hfwf : filesChildless (TokenNode.mk p true 0 []) = true := rfl
      have hfda : dirsAlong (TokenNode.mk p true 0 []) (q :: rest) = true := by
        cases rest <;> rfl
      simp only [insertPath, hecn] at h
      cases hx : insertPath (TokenNode.mk p true 0 []) (q :: rest) tk with
      | none => rw [hx] at h; simp at h
      | some child' =>
        rw [hx] at h
        simp only [Option.some_inj] at h
        subst h
        have hwfc' := insertPath_preserves_wf (q :: rest) (TokenNode.mk p true 0 [])
          tk child' rfl hfwf hfda hx
        rw [withChildren_eq, withChildren_is_dir, withChildren_children, hdir]
        refine filesChildless_mk_dir _ _ _ ?_
        refine filesChildlessList_updateChild _ _ _ (fun _ _ => hwfc') ?_
        exact filesChildlessList_append _ _ (filesChildless_children hwf) hfwf

/-- Aggregating a list of invariant-satisfying trees yields
invariant-satisfying trees. -/
theorem aggregateList_preserves_wf (cs : List TokenNode)
    (hwf : filesChildlessList cs = true)
    (ih : ∀ c ∈ cs, filesChildless c = true → filesChildless ((c.aggregate).1) = true) :
    filesChildlessList ((aggregateList cs).1) = true := by
  induction cs with
  | nil => rfl
  | cons c rest ihr =>
    simp only [filesChildlessList, Bool.and_eq_true] at hwf
    simp only [aggregateList, filesChildlessList, Bool.and_eq_true]
    exact ⟨ih c (by simp) hwf.1,
      ihr hwf.2 (fun x hx h => ih x (by simp [hx]) h)⟩

/-- Aggregation keeps the childless-files invariant. -/
theorem aggregate_preserves_wf (t : TokenNode) (h : filesChildless t = true) :
    filesChildless ((t.aggregate).1) = true := by
  induction t using TokenNode.ind with
  | h n d t cs ih =>
    by_cases hd : d = true
    · subst hd
      simp only [filesChildless, Bool.true_or, Bool.true_and] at h
      simp only [TokenNode.aggregate, if_true]
      exact filesChildless_mk_dir _ _ _
        (aggregateList_preserves_wf cs h (fun c hc hcw => ih c hc hcw))
    · have hd' : d = false := by
        cases d
        · rfl
        · exact absurd rfl hd
      subst hd'
      have hagg : (TokenNode.mk n false t cs).aggregate = (TokenNode.mk n false t cs, t) := rfl
      rw [hagg]
      exact h

/-- C8 (amended): the childless-files invariant is kept by aggregation, by
`ensure_child` on a directory node, and by any single insertion along a path
whose already-existing proper-prefix segments are directories; tree building
from an entry list that reuses a file path as a directory path, however, does
attach a child to a file node (see the counterexample). -/
theorem invariant_preservation :
    (∀ t : TokenNode, filesChildless t = true →
        filesChildless ((t.aggregate).1) = true)
      ∧ (∀ (t : TokenNode) (s : String) (d : Bool), t.is_dir = true →
          filesChildless t = true → filesChildless ((t.ensure_child s d).1) = true)
      ∧ (∀ (t : TokenNode) (parts : List String) (tk : Nat) (t' : TokenNode),
          t.is_dir = true → filesChildless t = true → dirsAlong t parts = true →
          insertPath t parts tk = some t' → filesChildless t' = true) :=
  ⟨aggregate_preserves_wf,
    ensure_child_preserves_wf,
    fun t parts tk t' => insertPath_preserves_wf parts t tk t'⟩

/-- Counterexample to C8 as stated: building from the colliding entry list
`f` (file, 5 tokens) then `f/g` (3 tokens) produces a tree that violates the
claimed invariant — the file node `f` has received a child. -/
theorem build_collision_attaches_child_to_file :
    (build_token_tree "r" [(["f"], some 5), (["f", "g"], some 3)]).map
        (fun p => filesChildless p.1)
      = some false :=
  rfl

/-- Witness for `invariant_preservation` at concrete inputs: one aggregation,
one `ensure_child`, and one two-segment insertion. -/
theorem invariant_preservation_witness :
    filesChildless (TokenNode.mk "r" true 0 [TokenNode.mk "a" false 3 []]) = true
      ∧ (TokenNode.mk "r" true 0 [TokenNode.mk "a" false 3 []]).is_dir = true
      ∧ dirsAlong (TokenNode.mk "r" true 0 [TokenNode.mk "a" false 3 []]) ["s", "b"] = true
      ∧ insertPath (TokenNode.mk "r" true 0 [TokenNode.mk "a" false 3 []]) ["s", "b"] 2
          = some (TokenNode.mk "r" true 0
              [TokenNode.mk "a" false 3 [],
               TokenNode.mk "s" true 0 [TokenNode.mk "b" false 2 []]])
      ∧ filesChildless
          (((TokenNode.mk "r" true 0 [TokenNode.mk "a" false 3 []]).aggregate).1) = true
      ∧ filesChildless
          (((TokenNode.mk "r" true 0 [TokenNode.mk "a" false 3 []]).ensure_child "x" false).1)
          = true
      ∧ filesChildless (TokenNode.mk "r" true 0
          [TokenNode.mk "a" false 3 [],
           TokenNode.mk "s" true 0 [TokenNode.mk "b" false 2 []]]) = true :=
  ⟨rfl, rfl, rfl, rfl,
    invariant_preservation.1
      (TokenNode.mk "r" true 0 [TokenNode.mk "a" false 3 []]) rfl,
    invariant_preservation.2.1
      (TokenNode.mk "r" true 0 [TokenNode.mk "a" false 3 []]) "x" false rfl rfl,
    invariant_preservation.2.2
      (TokenNode.mk "r" true 0 [TokenNode.mk "a" false 3 []]) ["s", "b"] 2
      (TokenNode.mk "r" true 0
        [TokenNode.mk "a" false 3 [],
         TokenNode.mk "s" true 0 [TokenNode.mk "b" false 2 []]]) rfl rfl rfl rfl⟩

/-- The sibling sort produces a list sorted by ascending name. -/
theorem sortByName_sorted (l : List TokenNode) :
    (sortByName l).Pairwise (fun a b => a.name ≤ b.name) := by
  have h := @List.sorted_mergeSort TokenNode
    (fun a b => decide (a.name ≤ b.name))
    (fun a b c hab hbc => by
      simp only [decide_eq_true_eq] at *
      exact le_trans hab hbc)
    (fun a b => by
      simp only [Bool.or_eq_true, decide_eq_true_eq]
      exact le_total a.name b.name)
    l
  exact h.imp (fun {a b} hab => by simpa using hab)

/-- Members of the directory group are directories. -/
theorem mem_sort_filter_dir {l : List TokenNode} {c : TokenNode}
    (h : c ∈ sortByName (l.filter (fun x => x.is_dir))) :
    c.is_dir = true := by
  have := List.mem_mergeSort.mp h
  exact (List.mem_filter.mp this).2

/-- Members of the file group are files. -/
theorem mem_sort_filter_file {l : List TokenNode} {c : TokenNode}
    (h : c ∈ sortByName (l.filter (fun x => !x.is_dir))) :
    c.is_dir = false := by
  have := List.mem_mergeSort.mp h
  have h2 := (List.mem_filter.mp this).2
  simpa using h2

/-- C5: the rendered output visits, at every level, the current node's row
first, then the children in a fixed deterministic order: every directory
child before every file child, and ascending name order inside each of the
two groups; the visited children are exactly the node's children. -/
theorem render_child_order (n : TokenNode) (pre : String) (isLast : Bool)
    (depth : Nat) :
    (∃ r, walkRows n pre isLast depth
        = r :: walkChildren (orderedChildren n)
            (pre ++ (if isLast then "    " else "│   ")) (depth + 1))
      ∧ (orderedChildren n).Perm n.children
      ∧ List.Pairwise (fun a b =>
            (b.is_dir = true → a.is_dir = true)
            ∧ (a.is_dir = b.is_dir → a.name ≤ b.name)) (orderedChildren n) := by
  refine ⟨⟨_, by rw [walkRows]⟩, orderedChildren_perm n, ?_⟩
  unfold orderedChildren
  rw [List.pairwise_append]
  refine ⟨?_, ?_, ?_⟩
  · refine List.Pairwise.imp_of_mem ?_ (sortByName_sorted _)
    intro a b ha hb hab
    exact ⟨fun _ => mem_sort_filter_dir ha, fun _ => hab⟩
  · refine List.Pairwise.imp_of_mem ?_ (sortByName_sorted _)
    intro a b ha hb hab
    refine ⟨fun hbd => ?_, fun _ => hab⟩
    · rw [mem_sort_filter_file hb] at hbd
      exact absurd hbd (by simp)
  · intro a ha b hb
    have had := mem_sort_filter_dir ha
    have hbf := mem_sort_filter_file hb
    refine ⟨fun hbd => had, fun heq => ?_⟩
    rw [had, hbf] at heq
    exact absurd heq (by simp)

/-- Canonicalization through the children accessor, in mapped form. -/
theorem normalizeTree_def (n : TokenNode) :
    normalizeTree n
      = TokenNode.mk n.name n.is_dir n.tokens ((orderedChildren n).map normalizeTree) := by
  rw [normalizeTree]
  rw [List.attach_map_val (orderedChildren n) normalizeTree]

/-- Canonicalization keeps the name. -/
theorem normalizeTree_name (n : TokenNode) : (normalizeTree n).name = n.name := by
  rw [normalizeTree_def]
  rfl

/-- Canonicalization keeps the directory flag. -/
theorem normalizeTree_is_dir (n : TokenNode) :
    (normalizeTree n).is_dir = n.is_dir := by
  rw [normalizeTree_def]
  rfl

/-- Canonicalization keeps the token count. -/
theorem normalizeTree_tokens (n : TokenNode) :
    (normalizeTree n).tokens = n.tokens := by
  rw [normalizeTree_def]
  rfl

/-- Canonicalization of the children list. -/
theorem normalizeTree_children (n : TokenNode) :
    (normalizeTree n).children = (orderedChildren n).map normalizeTree := by
  rw [normalizeTree_def]
  rfl

/-- Filtering by a predicate that canonicalization does not change commutes
with mapping canonicalization. -/
theorem filter_map_normalize (p : TokenNode → Bool)
    (hp : ∀ c, p (normalizeTree c) = p c) :
    ∀ l : List TokenNode,
      (l.map normalizeTree).filter p = (l.filter p).map normalizeTree := by
  intro l
  induction l with
  | nil => rfl
  | cons c rest ih =>
    simp only [List.map_cons, List.filter_cons, hp c]
    by_cases h : p c
    · simp [h, ih]
    · simp [h, ih]

/-- The directory group of the visit order is the sorted directory filter. -/
theorem orderedChildren_filter_dir (n : TokenNode) :
    (orderedChildren n).filter (fun c => c.is_dir)
      = sortByName (n.children.filter (fun c => c.is_dir)) := by
  unfold orderedChildren
  rw [List.filter_append]
  have h1 : (sortByName (n.children.filter (fun c => c.is_dir))).filter
        (fun c => c.is_dir)
      = sortByName (n.children.filter (fun c => c.is_dir)) :=
    List.filter_eq_self.mpr (fun a ha => mem_sort_filter_dir ha)
  have h2 : (sortByName (n.children.filter (fun c => !c.is_dir))).filter
        (fun c => c.is_dir)
      = [] :=
    List.filter_eq_nil_iff.mpr (fun a ha => by simp [mem_sort_filter_file ha])
  rw [h1, h2, List.append_nil]

/-- The file group of the visit order is the sorted file filter. -/
theorem orderedChildren_filter_file (n : TokenNode) :
    (orderedChildren n).filter (fun c => !c.is_dir)
      = sortByName (n.children.filter (fun c => !c.is_dir)) := by
  unfold orderedChildren
  rw [List.filter_append]
  have h1 : (sortByName (n.children.filter (fun c => c.is_dir))).filter
        (fun c => !c.is_dir)
      = [] :=
    List.filter_eq_nil_iff.mpr (fun a ha => by simp [mem_sort_filter_dir ha])
  have h2 : (sortByName (n.children.filter (fun c => !c.is_dir))).filter
        (fun c => !c.is_dir)
      = sortByName (n.children.filter (fun c => !c.is_dir)) :=
    List.filter_eq_self.mpr (fun a ha => by simp [mem_sort_filter_file ha])
  rw [h1, h2, List.nil_append]

/-- Sorting a name-sorted list again changes nothing. -/
theorem sortByName_of_sorted {l : List TokenNode}
    (h : l.Pairwise (fun a b => a.name ≤ b.name)) : sortByName l = l := by
  refine List.mergeSort_of_sorted ?_
  exact h.imp (fun {a b} hab => by simpa using hab)

/-- Canonicalized children sort the same way: the visit order of a
canonicalized node is the canonicalization of the original visit order. -/
theorem orderedChildren_normalize (n : TokenNode) :
    orderedChildren (normalizeTree n) = (orderedChildren n).map normalizeTree := by
  conv_lhs => rw [show orderedChildren (normalizeTree n)
    = sortByName ((normalizeTree n).children.filter (fun c => c.is_dir))
      ++ sortByName ((normalizeTree n).children.filter (fun c => !c.is_dir)) from rfl]
  rw [normalizeTree_children]
  rw [filter_map_normalize _ (fun c => by rw [normalizeTree_is_dir])]
  rw [filter_map_normalize _ (fun c => by rw [normalizeTree_is_dir])]
  rw [orderedChildren_filter_dir, orderedChildren_filter_file]
  rw [sortByName_of_sorted ((sortByName_sorted _).map _
    (fun a b hab => by rwa [normalizeTree_name, normalizeTree_name]))]
  rw [sortByName_of_sorted ((sortByName_sorted _).map _
    (fun a b hab => by rwa [normalizeTree_name, normalizeTree_name]))]
  rw [← List.map_append]
  rfl

/-- Walking a canonicalized children list gives the same rows, granted the
same for each member. -/
theorem walkChildren_map_normalize (l : List TokenNode)
    (ih : ∀ c ∈ l, ∀ (pre : String) (il : Bool) (dep : Nat),
      walkRows (normalizeTree c) pre il dep = walkRows c pre il dep) :
    ∀ (pre : String) (dep : Nat),
      walkChildren (l.map normalizeTree) pre dep = walkChildren l pre dep := by
  induction l with
  | nil => intro pre dep; rfl
  | cons c rest ihr =>
    intro pre dep
    simp only [List.map_cons, walkChildren]
    rw [show (rest.map normalizeTree).isEmpty = rest.isEmpty from by cases rest <;> rfl]
    rw [ih c (by simp) pre rest.isEmpty dep,
      ihr (fun x hx => ih x (by simp [hx])) pre dep]

/-- Walking a canonicalized tree gives exactly the same rows. -/
theorem walkRows_normalize (n : TokenNode) :
    ∀ (pre : String) (il : Bool) (dep : Nat),
      walkRows (normalizeTree n) pre il dep = walkRows n pre il dep := by
  induction n using TokenNode.ind with
  | h nm d t cs ih =>
    intro pre il dep
    rw [walkRows, walkRows]
    rw [normalizeTree_name, normalizeTree_is_dir, normalizeTree_tokens]
    rw [orderedChildren_normalize]
    rw [walkChildren_map_normalize (orderedChildren (TokenNode.mk nm d t cs))
      (fun c hc => ih c ((orderedChildren_perm _).mem_iff.mp hc))]

/-- C9: rendering is deterministic and depends only on the tree contents:
two trees holding the same nodes — equal up to the insertion order of their
children dictionaries, i.e. with equal canonical forms — render to the
identical row sequence, for any render parameters (the bar and percent cells
of a row are functions of the modelled row data, `max_tokens` and
`bar_width` alone). -/
theorem render_independent_of_child_order (t₁ t₂ : TokenNode)
    (h : normalizeTree t₁ = normalizeTree t₂) :
    renderRows t₁ = renderRows t₂ := by
  unfold renderRows
  rw [← walkRows_normalize t₁ "" true 0, h, walkRows_normalize t₂ "" true 0]

/-- Witness for `render_independent_of_child_order`: the same directory and
file children inserted in the two possible orders render identically. -/
theorem render_independent_of_child_order_witness :
    normalizeTree (TokenNode.mk "r" true 0
        [TokenNode.mk "d" true 0 [], TokenNode.mk "f" false 1 []])
      = normalizeTree (TokenNode.mk "r" true 0
          [TokenNode.mk "f" false 1 [], TokenNode.mk "d" true 0 []])
      ∧ renderRows (TokenNode.mk "r" true 0
          [TokenNode.mk "d" true 0 [], TokenNode.mk "f" false 1 []])
        = renderRows (TokenNode.mk "r" true 0
            [TokenNode.mk "f" false 1 [], TokenNode.mk "d" true 0 []]) := by
  have h : normalizeTree (TokenNode.mk "r" true 0
        [TokenNode.mk "d" true 0 [], TokenNode.mk "f" false 1 []])
      = normalizeTree (TokenNode.mk "r" true 0
          [TokenNode.mk "f" false 1 [], TokenNode.mk "d" true 0 []]) := by
    simp [normalizeTree_def, orderedChildren, sortByName, TokenNode.children,
      TokenNode.name, TokenNode.is_dir, TokenNode.tokens, List.filter]
  exact ⟨h, render_independent_of_child_order _ _ h⟩
